import Mathlib

set_option autoImplicit false

/-!
A verification development for the `s3_log` package: a write-ahead log that
stores each record as one object in an S3-compatible object store.

The embedding models:
  * bytes as natural numbers (`List Nat` for byte strings),
  * object keys as `List Char`,
  * the object store as an association list from keys to bodies,
  * the paginated `ListObjectsV2` results as a list of pages of keys,
  * `uint64` arithmetic as natural-number arithmetic with explicit `% 2 ^ 64`.

Definitions follow the Go source (`s3_log` package) function by function:
`getObjectKey`, `getOffsetFromKey`, `prepareBody`, `validateChecksum`,
`Append`, `Read`, `LastRecord`, `Recover`, `Truncate`.
-/

/-! ## Big-endian 64-bit encoding (`encoding/binary`, BigEndian uint64) -/

/-- The eight big-endian bytes of a 64-bit value, as written by
`binary.Write(w, binary.BigEndian, offset)`. Values `≥ 2^64` are truncated
to their low 64 bits, as in Go. -/
def natToBe64 (n : Nat) : List Nat :=
  [n / 2 ^ 56 % 256, n / 2 ^ 48 % 256, n / 2 ^ 40 % 256, n / 2 ^ 32 % 256,
   n / 2 ^ 24 % 256, n / 2 ^ 16 % 256, n / 2 ^ 8 % 256, n % 256]

/-- Big-endian parse of a byte string, as done by
`binary.Read(bytes.NewReader(data[:8]), binary.BigEndian, &storedOffset)`. -/
def be64ToNat (bs : List Nat) : Nat :=
  bs.foldl (fun acc b => acc * 256 + b) 0

theorem length_natToBe64 (n : Nat) : (natToBe64 n).length = 8 := by
  simp [natToBe64]

theorem be64ToNat_natToBe64 (n : Nat) (h : n < 2 ^ 64) :
    be64ToNat (natToBe64 n) = n := by
  simp only [natToBe64, be64ToNat, List.foldl]
  omega

/-! ## SHA-256 (`crypto/sha256`)

An executable translation of the FIPS 180-4 SHA-256 algorithm used by
`prepareBody` and `validateChecksum`. Words are naturals kept below `2 ^ 32`
by explicit reductions. -/

/-- The 64 SHA-256 round constants of FIPS 180-4 (fractional parts of the
cube roots of the first 64 primes), written in decimal. -/
def shaK : List Nat :=
  [1116352408, 1899447441, 3049323471, 3921009573, 961987163, 1508970993,
   2453635748, 2870763221, 3624381080, 310598401, 607225278, 1426881987,
   1925078388, 2162078206, 2614888103, 3248222580, 3835390401, 4022224774,
   264347078, 604807628, 770255983, 1249150122, 1555081692, 1996064986,
   2554220882, 2821834349, 2952996808, 3210313671, 3336571891, 3584528711,
   113926993, 338241895, 666307205, 773529912, 1294757372, 1396182291,
   1695183700, 1986661051, 2177026350, 2456956037, 2730485921, 2820302411,
   3259730800, 3345764771, 3516065817, 3600352804, 4094571909, 275423344,
   430227734, 506948616, 659060556, 883997877, 958139571, 1322822218,
   1537002063, 1747873779, 1955562222, 2024104815, 2227730452, 2361852424,
   2428436474, 2756734187, 3204031479, 3329325298]

/-- The SHA-256 initial hash value of FIPS 180-4, written in decimal. -/
def shaH0 : List Nat :=
  [1779033703, 3144134277, 1013904242, 2773480762, 1359893119, 2600822924,
   528734635, 1541459225]

/-- Right rotation of a 32-bit word. -/
def rotr32 (x n : Nat) : Nat := (x >>> n ||| x <<< (32 - n)) % 2 ^ 32

def sSig0 (x : Nat) : Nat := rotr32 x 7 ^^^ rotr32 x 18 ^^^ x >>> 3

def sSig1 (x : Nat) : Nat := rotr32 x 17 ^^^ rotr32 x 19 ^^^ x >>> 10

def bSig0 (x : Nat) : Nat := rotr32 x 2 ^^^ rotr32 x 13 ^^^ rotr32 x 22

def bSig1 (x : Nat) : Nat := rotr32 x 6 ^^^ rotr32 x 11 ^^^ rotr32 x 25

def chFn (x y z : Nat) : Nat := x &&& y ^^^ (x ^^^ 0xffffffff) &&& z

def majFn (x y z : Nat) : Nat := x &&& y ^^^ x &&& z ^^^ y &&& z

/-- Extend a 16-word block to the 64-word message schedule (fuelled, run with
fuel 48). -/
def extendW : Nat → List Nat → List Nat
  | 0, ws => ws
  | fuel + 1, ws =>
    let n := ws.length
    extendW fuel (ws ++
      [(sSig1 (ws.getD (n - 2) 0) + ws.getD (n - 7) 0 +
        sSig0 (ws.getD (n - 15) 0) + ws.getD (n - 16) 0) % 2 ^ 32])

/-- One SHA-256 round on the working state `[a, b, c, d, e, f, g, h]`. -/
def roundStep (s : List Nat) (kw : Nat × Nat) : List Nat :=
  let a := s.getD 0 0
  let b := s.getD 1 0
  let c := s.getD 2 0
  let d := s.getD 3 0
  let e := s.getD 4 0
  let f := s.getD 5 0
  let g := s.getD 6 0
  let h := s.getD 7 0
  let t1 := (h + bSig1 e + chFn e f g + kw.1 + kw.2) % 2 ^ 32
  let t2 := (bSig0 a + majFn a b c) % 2 ^ 32
  [(t1 + t2) % 2 ^ 32, a, b, c, (d + t1) % 2 ^ 32, e, f, g]

/-- Compression of a single 16-word block into the running hash. -/
def compressBlock (hv : List Nat) (block : List Nat) : List Nat :=
  let w := extendW 48 block
  let s := (shaK.zip w).foldl roundStep hv
  List.zipWith (fun x y => (x + y) % 2 ^ 32) hv s

/-- SHA-256 padding for a message of `len` bytes: `0x80`, zeros up to 56
bytes mod 64, then the bit length as a big-endian 64-bit value. -/
def shaPadding (len : Nat) : List Nat :=
  0x80 :: List.replicate ((119 - len % 64) % 64) 0 ++ natToBe64 (8 * len)

/-- Group a byte string into big-endian 32-bit words. -/
def toWords : List Nat → List Nat
  | b0 :: b1 :: b2 :: b3 :: rest =>
    (((b0 * 256 + b1) * 256 + b2) * 256 + b3) :: toWords rest
  | _ => []

/-- Split a word list into 16-word blocks (fuelled, run with the list
length as fuel). -/
def toBlocksAux : Nat → List Nat → List (List Nat)
  | 0, _ => []
  | _, [] => []
  | fuel + 1, ws => ws.take 16 :: toBlocksAux fuel (ws.drop 16)

/-- The SHA-256 digest (32 bytes) of a byte string, as `sha256.Sum256` /
`sha256.New` + `Sum(nil)` compute it. -/
def sha256 (msg : List Nat) : List Nat :=
  (((toBlocksAux (toWords (msg ++ shaPadding msg.length)).length
      (toWords (msg ++ shaPadding msg.length))).foldl compressBlock shaH0).map
    (fun w => [w / 2 ^ 24 % 256, w / 2 ^ 16 % 256, w / 2 ^ 8 % 256, w % 256])).flatten

theorem length_roundStep (s : List Nat) (kw : Nat × Nat) :
    (roundStep s kw).length = 8 := by
  simp [roundStep]

theorem length_foldl_roundStep (l : List (Nat × Nat)) (s : List Nat)
    (h : s.length = 8) : (l.foldl roundStep s).length = 8 := by
  induction l generalizing s with
  | nil => simpa using h
  | cons p t ih => simpa [List.foldl] using ih _ (length_roundStep s p)

theorem length_compressBlock (hv block : List Nat) (h : hv.length = 8) :
    (compressBlock hv block).length = 8 := by
  simp [compressBlock, List.length_zipWith, h,
    length_foldl_roundStep _ _ h]

theorem length_foldl_compressBlock (bs : List (List Nat)) (hv : List Nat)
    (h : hv.length = 8) : (bs.foldl compressBlock hv).length = 8 := by
  induction bs generalizing hv with
  | nil => simpa using h
  | cons b t ih => simpa [List.foldl] using ih _ (length_compressBlock hv b h)

theorem length_flatten_quads (l : List Nat) :
    ((l.map (fun w => [w / 2 ^ 24 % 256, w / 2 ^ 16 % 256, w / 2 ^ 8 % 256, w % 256])).flatten).length
      = 4 * l.length := by
  induction l with
  | nil => simp
  | cons x t ih =>
    simp only [List.map_cons, List.flatten_cons, List.length_append, ih,
      List.length_cons, List.length_nil]
    omega

theorem length_sha256 (msg : List Nat) : (sha256 msg).length = 32 := by
  simp only [sha256]
  rw [length_flatten_quads, length_foldl_compressBlock _ _ (by simp [shaH0])]

/-! ## Key encoding (`getObjectKey` / `getOffsetFromKey`)

Object keys are modelled as `List Char`. `getObjectKey` renders
`prefix + "/" + fmt.Sprintf("%020d", offset)`; `getOffsetFromKey` takes the
substring after the last `'/'` and parses it with
`strconv.ParseUint(s, 10, 64)`. -/

/-- The character of a decimal digit `d < 10`. -/
def digitChar (d : Nat) : Char := Char.ofNat (48 + d)

/-- Decimal digits of `n`, most significant first (fuelled; `natDigits`
supplies enough fuel). This is the decimal rendering used by `fmt`'s `%d`. -/
def natDigitsAux : Nat → Nat → List Char
  | 0, _ => []
  | fuel + 1, n =>
    if n < 10 then [digitChar n]
    else natDigitsAux fuel (n / 10) ++ [digitChar (n % 10)]

def natDigits (n : Nat) : List Char := natDigitsAux (n + 1) n

/-- Left-pad with `'0'` to width 20, as `fmt.Sprintf("%020d", offset)` does. -/
def zeroPad20 (ds : List Char) : List Char :=
  List.replicate (20 - ds.length) '0' ++ ds

/-- `getObjectKey`: builds `prefix + "/" + <zero-padded 20-digit offset>`. -/
def getObjectKey (keyPrefix : List Char) (offset : Nat) : List Char :=
  keyPrefix ++ '/' :: zeroPad20 (natDigits offset)

/-- Value of a decimal digit string, most significant digit first. -/
def digitsToNat (ds : List Char) : Nat :=
  ds.foldl (fun acc c => acc * 10 + (c.toNat - 48)) 0

/-- `strconv.ParseUint(s, 10, 64)`: succeeds exactly on a nonempty string of
decimal digits whose value fits in 64 bits. -/
def parseUint64 (ds : List Char) : Option Nat :=
  if ds ≠ [] ∧ ds.all Char.isDigit ∧ digitsToNat ds < 2 ^ 64 then
    some (digitsToNat ds)
  else none

/-- The substring after the last `'/'` of a key; `none` when the key has no
slash or ends with one (`strings.LastIndexByte` plus the two index checks). -/
def suffixAfterLastSlash (key : List Char) : Option (List Char) :=
  if '/' ∈ key then
    if (key.reverse.takeWhile (fun c => c != '/')).reverse = [] then none
    else some (key.reverse.takeWhile (fun c => c != '/')).reverse
  else none

/-- `getOffsetFromKey`: extract and parse the offset encoded in a key. -/
def getOffsetFromKey (key : List Char) : Option Nat :=
  match suffixAfterLastSlash key with
  | none => none
  | some ds => parseUint64 ds

theorem digitChar_isDigit (d : Nat) (h : d < 10) : (digitChar d).isDigit = true := by
  revert h
  revert d
  decide

theorem digitChar_toNat (d : Nat) (h : d < 10) : (digitChar d).toNat = 48 + d := by
  revert h
  revert d
  decide

theorem natDigitsAux_all_digits (fuel n : Nat) :
    ∀ c ∈ natDigitsAux fuel n, c.isDigit = true := by
  induction fuel generalizing n with
  | zero => simp [natDigitsAux]
  | succ fuel ih =>
    intro c hc
    simp only [natDigitsAux] at hc
    by_cases h : n < 10
    · simp [h] at hc
      exact hc ▸ digitChar_isDigit n h
    · simp [h] at hc
      rcases hc with hc | hc
      · exact ih _ c hc
      · exact hc ▸ digitChar_isDigit (n % 10) (Nat.mod_lt _ (by omega))

theorem natDigitsAux_ne_nil (fuel n : Nat) (h : fuel ≠ 0) :
    natDigitsAux fuel n ≠ [] := by
  cases fuel with
  | zero => omega
  | succ fuel =>
    simp only [natDigitsAux]
    by_cases h10 : n < 10 <;> simp [h10]

theorem digitsToNat_append_digit (ds : List Char) (c : Char) :
    digitsToNat (ds ++ [c]) = 10 * digitsToNat ds + (c.toNat - 48) := by
  simp [digitsToNat, List.foldl_append]
  omega

theorem digitsToNat_natDigitsAux (fuel n : Nat) (h : n < 10 ^ fuel) :
    digitsToNat (natDigitsAux fuel n) = n := by
  induction fuel generalizing n with
  | zero =>
    simp at h
    subst h
    simp [natDigitsAux, digitsToNat]
  | succ fuel ih =>
    simp only [natDigitsAux]
    by_cases h10 : n < 10
    · simp [h10, digitsToNat, digitChar_toNat n h10]
    · simp only [h10, if_false]
      rw [digitsToNat_append_digit,
        ih (n / 10) (by rw [Nat.div_lt_iff_lt_mul (by omega)]; rw [pow_succ] at h; omega),
        digitChar_toNat (n % 10) (Nat.mod_lt _ (by omega))]
      omega

theorem digitsToNat_natDigits (n : Nat) : digitsToNat (natDigits n) = n :=
  digitsToNat_natDigitsAux (n + 1) n
    (lt_of_lt_of_le (Nat.lt_pow_self (by omega) n) (Nat.pow_le_pow_right (by omega) (by omega)))

theorem natDigits_all_digits (n : Nat) : ∀ c ∈ natDigits n, c.isDigit = true :=
  natDigitsAux_all_digits (n + 1) n

theorem natDigits_ne_nil (n : Nat) : natDigits n ≠ [] :=
  natDigitsAux_ne_nil (n + 1) n (by omega)

theorem natDigitsAux_length_le (fuel n k : Nat) (hn : n < 10 ^ k) (hk : 1 ≤ k) :
    (natDigitsAux fuel n).length ≤ k := by
  induction fuel generalizing n k with
  | zero => simp [natDigitsAux]
  | succ fuel ih =>
    simp only [natDigitsAux]
    by_cases h10 : n < 10
    · simpa [h10] using hk
    · simp only [h10, if_false, List.length_append, List.length_cons,
        List.length_nil]
      have hk2 : 2 ≤ k := by
        by_contra hlt
        have : k = 1 := by omega
        subst this
        simp at hn
        omega
      have := ih (n / 10) (k - 1)
        (by
          rw [Nat.div_lt_iff_lt_mul (by omega)]
          have : 10 ^ (k - 1) * 10 = 10 ^ k := by
            rw [← pow_succ]
            congr 1
            omega
          omega)
        (by omega)
      omega

theorem digitsToNat_replicate_zero (k : Nat) (ds : List Char) :
    digitsToNat (List.replicate k '0' ++ ds) = digitsToNat ds := by
  induction k with
  | zero => simp
  | succ k ih =>
    simpa [digitsToNat, List.replicate_succ] using ih

theorem digitsToNat_zeroPad20 (ds : List Char) :
    digitsToNat (zeroPad20 ds) = digitsToNat ds :=
  digitsToNat_replicate_zero _ ds

theorem zeroPad20_all_digits (ds : List Char) (h : ∀ c ∈ ds, c.isDigit = true) :
    ∀ c ∈ zeroPad20 ds, c.isDigit = true := by
  intro c hc
  rcases List.mem_append.mp hc with hc | hc
  · have := List.eq_of_mem_replicate hc
    subst this
    decide
  · exact h c hc

theorem zeroPad20_ne_nil (ds : List Char) (h : ds ≠ []) : zeroPad20 ds ≠ [] := by
  intro hcontra
  rcases List.append_eq_nil.mp hcontra with ⟨-, h2⟩
  exact h h2

theorem zeroPad20_length (ds : List Char) (h : ds.length ≤ 20) :
    (zeroPad20 ds).length = 20 := by
  simp [zeroPad20]
  omega

theorem isDigit_ne_slash (c : Char) (h : c.isDigit = true) : (c != '/') = true := by
  rw [bne_iff_ne]
  intro hcontra
  rw [hcontra] at h
  exact absurd h (by decide)

theorem takeWhile_append_stop {α : Type} (p : α → Bool) (xs ys : List α) (y : α)
    (hxs : ∀ x ∈ xs, p x = true) (hy : p y = false) :
    List.takeWhile p (xs ++ y :: ys) = xs := by
  induction xs with
  | nil => simp [List.takeWhile_cons, hy]
  | cons x t ih =>
    rw [List.cons_append, List.takeWhile_cons, hxs x (by simp)]
    simp only [if_true]
    rw [ih (fun a ha => hxs a (by simp [ha]))]

theorem suffixAfterLastSlash_append (p block : List Char)
    (hb : ∀ c ∈ block, (c != '/') = true) (hne : block ≠ []) :
    suffixAfterLastSlash (p ++ '/' :: block) = some block := by
  have hmem : '/' ∈ p ++ '/' :: block := List.mem_append.mpr (Or.inr (by simp))
  have htake : ((p ++ '/' :: block).reverse.takeWhile (fun c => c != '/')).reverse = block := by
    rw [List.reverse_append, List.reverse_cons]
    rw [List.append_assoc, List.singleton_append]
    rw [takeWhile_append_stop _ _ _ _ (fun x hx => hb x (by simpa using hx)) (by simp)]
    simp
  simp only [suffixAfterLastSlash, if_pos hmem, htake, if_neg hne]

theorem getOffsetFromKey_getObjectKey (p : List Char) (o : Nat) (h : o < 2 ^ 64) :
    getOffsetFromKey (getObjectKey p o) = some o := by
  have hdig := natDigits_all_digits o
  have hall : ∀ c ∈ zeroPad20 (natDigits o), c.isDigit = true :=
    zeroPad20_all_digits _ hdig
  rw [getOffsetFromKey, getObjectKey,
    suffixAfterLastSlash_append p _ (fun c hc => isDigit_ne_slash c (hall c hc))
      (zeroPad20_ne_nil _ (natDigits_ne_nil o))]
  have hcond : zeroPad20 (natDigits o) ≠ [] ∧
      (zeroPad20 (natDigits o)).all Char.isDigit = true ∧
      digitsToNat (zeroPad20 (natDigits o)) < 2 ^ 64 := by
    refine ⟨zeroPad20_ne_nil _ (natDigits_ne_nil o), List.all_eq_true.mpr hall, ?_⟩
    rw [digitsToNat_zeroPad20, digitsToNat_natDigits]
    exact h
  simp only [parseUint64, if_pos hcond]
  rw [digitsToNat_zeroPad20, digitsToNat_natDigits]

theorem getObjectKey_injective (p : List Char) (a b : Nat)
    (h : getObjectKey p a = getObjectKey p b) : a = b := by
  have h2 : zeroPad20 (natDigits a) = zeroPad20 (natDigits b) := by
    have := List.append_cancel_left h
    simpa using this
  have := congrArg digitsToNat h2
  rwa [digitsToNat_zeroPad20, digitsToNat_zeroPad20, digitsToNat_natDigits,
    digitsToNat_natDigits] at this

theorem isPrefixOf_getObjectKey (p : List Char) (o : Nat) :
    (p ++ ['/']).isPrefixOf (getObjectKey p o) = true := by
  rw [List.isPrefixOf_iff_prefix, getObjectKey]
  have : p ++ '/' :: zeroPad20 (natDigits o) = (p ++ ['/']) ++ zeroPad20 (natDigits o) := by
    simp
  rw [this]
  exact List.prefix_append _ _

/-! ## Lexicographic order of keys

S3 lists keys in byte-lexicographic order; on our `List Char` keys this is
`List.Lex (· < ·)`. The fixed-width zero-padded offset encoding makes this
order agree with numeric offset order. -/

theorem char_lt_iff_toNat (a b : Char) : a < b ↔ a.toNat < b.toNat := by
  rw [Char.lt_def]
  exact Iff.rfl

theorem char_eq_of_toNat_eq (c d : Char) (h : c.toNat = d.toNat) : c = d := by
  have hlt : ¬ c < d := by
    rw [char_lt_iff_toNat]
    omega
  have hgt : ¬ d < c := by
    rw [char_lt_iff_toNat]
    omega
  exact le_antisymm (not_lt.mp hgt) (not_lt.mp hlt)

theorem isDigit_toNat_bounds (c : Char) (h : c.isDigit = true) :
    48 ≤ c.toNat ∧ c.toNat ≤ 57 := by
  have heq : c.isDigit = (48 ≤ c.toNat && c.toNat ≤ 57) := by
    simp [Char.isDigit]
    rfl
  rw [heq] at h
  simpa using h

theorem digitsToNat_foldl_acc (t : List Char) (acc : Nat) :
    List.foldl (fun a c => a * 10 + (c.toNat - 48)) acc t
      = acc * 10 ^ t.length + digitsToNat t := by
  induction t generalizing acc with
  | nil => simp [digitsToNat]
  | cons c t ih =>
    have h1 : List.foldl (fun a c => a * 10 + (c.toNat - 48)) acc (c :: t)
        = (acc * 10 + (c.toNat - 48)) * 10 ^ t.length + digitsToNat t := by
      rw [List.foldl_cons, ih]
    have h2 : digitsToNat (c :: t)
        = (0 * 10 + (c.toNat - 48)) * 10 ^ t.length + digitsToNat t := by
      rw [digitsToNat, List.foldl_cons, ih]
    rw [h1, h2, List.length_cons, pow_succ]
    ring

theorem digitsToNat_cons (c : Char) (t : List Char) :
    digitsToNat (c :: t) = (c.toNat - 48) * 10 ^ t.length + digitsToNat t := by
  rw [digitsToNat, List.foldl_cons, digitsToNat_foldl_acc]
  simp

theorem digitsToNat_lt_pow (t : List Char) (h : ∀ c ∈ t, c.isDigit = true) :
    digitsToNat t < 10 ^ t.length := by
  induction t with
  | nil => simp [digitsToNat]
  | cons c t ih =>
    have hc := isDigit_toNat_bounds c (h c (by simp))
    have ht := ih (fun x hx => h x (by simp [hx]))
    rw [digitsToNat_cons, List.length_cons, pow_succ]
    have hd : c.toNat - 48 ≤ 9 := by omega
    calc (c.toNat - 48) * 10 ^ t.length + digitsToNat t
        < (c.toNat - 48) * 10 ^ t.length + 10 ^ t.length := by omega
      _ = (c.toNat - 48 + 1) * 10 ^ t.length := by ring
      _ ≤ 10 * 10 ^ t.length := Nat.mul_le_mul_right _ (by omega)
      _ = 10 ^ t.length * 10 := by ring

theorem lex_of_digits_lt (a b : List Char) (hlen : a.length = b.length)
    (ha : ∀ c ∈ a, c.isDigit = true) (hb : ∀ c ∈ b, c.isDigit = true)
    (hv : digitsToNat a < digitsToNat b) : List.Lex (· < ·) a b := by
  induction a generalizing b with
  | nil =>
    rcases b with _ | ⟨d, u⟩
    · simp [digitsToNat] at hv
    · simp at hlen
  | cons c t ih =>
    rcases b with _ | ⟨d, u⟩
    · simp at hlen
    · have hlen' : t.length = u.length := by simpa using hlen
      have hct := isDigit_toNat_bounds c (ha c (by simp))
      have hdt := isDigit_toNat_bounds d (hb d (by simp))
      have htlt := digitsToNat_lt_pow t (fun x hx => ha x (by simp [hx]))
      have hult := digitsToNat_lt_pow u (fun x hx => hb x (by simp [hx]))
      rw [digitsToNat_cons, digitsToNat_cons, hlen'] at hv
      rcases Nat.lt_trichotomy c.toNat d.toNat with hcd | hcd | hcd
      · exact List.Lex.rel ((char_lt_iff_toNat c d).mpr hcd)
      · have : c = d := char_eq_of_toNat_eq c d hcd
        subst this
        refine List.Lex.cons (ih u hlen' (fun x hx => ha x (by simp [hx]))
          (fun x hx => hb x (by simp [hx])) ?_)
        omega
      · exfalso
        have h1 : (d.toNat - 48 + 1) * 10 ^ u.length ≤ (c.toNat - 48) * 10 ^ u.length :=
          Nat.mul_le_mul_right _ (by omega)
        have h2 : (d.toNat - 48 + 1) * 10 ^ u.length
            = (d.toNat - 48) * 10 ^ u.length + 10 ^ u.length := by ring
        omega

theorem lex_append_left {r : Char → Char → Prop} (zs xs ys : List Char)
    (h : List.Lex r xs ys) : List.Lex r (zs ++ xs) (zs ++ ys) := by
  induction zs with
  | nil => simpa using h
  | cons z t ih => exact List.Lex.cons ih

theorem natDigits_length_le20 (n : Nat) (h : n < 2 ^ 64) :
    (natDigits n).length ≤ 20 :=
  natDigitsAux_length_le (n + 1) n 20 (by norm_num at h ⊢; omega) (by omega)

theorem getObjectKey_lt (p : List Char) (a b : Nat) (hab : a < b)
    (hb : b < 2 ^ 64) :
    List.Lex (· < ·) (getObjectKey p a) (getObjectKey p b) := by
  have hka : getObjectKey p a = (p ++ ['/']) ++ zeroPad20 (natDigits a) := by
    simp [getObjectKey]
  have hkb : getObjectKey p b = (p ++ ['/']) ++ zeroPad20 (natDigits b) := by
    simp [getObjectKey]
  rw [hka, hkb]
  refine lex_append_left _ _ _ (lex_of_digits_lt _ _ ?_ ?_ ?_ ?_)
  · rw [zeroPad20_length _ (natDigits_length_le20 a (by omega)),
      zeroPad20_length _ (natDigits_length_le20 b hb)]
  · exact zeroPad20_all_digits _ (natDigits_all_digits a)
  · exact zeroPad20_all_digits _ (natDigits_all_digits b)
  · rw [digitsToNat_zeroPad20, digitsToNat_zeroPad20, digitsToNat_natDigits,
      digitsToNat_natDigits]
    exact hab

/-! ## The object store and the WAL state -/

/-- The object store: an association list from keys to object bodies.
`Store.put` keeps keys unique by construction. -/
abbrev Store := List (List Char × List Nat)

/-- `GetObject`: the body stored at `key`; `none` when no object exists. -/
def Store.get (s : Store) (key : List Char) : Option (List Nat) :=
  (s.find? (fun kb => kb.1 == key)).map (fun kb => kb.2)

/-- `PutObject`: create or overwrite the object at `key`. -/
def Store.put (s : Store) (key : List Char) (body : List Nat) : Store :=
  (key, body) :: s.filter (fun kb => !(kb.1 == key))

/-- The keys that a `ListObjectsV2` call with the given prefix filter ranges
over. The S3 listing delivers them in lexicographic order across pages;
theorems about the listing operations take the delivered pages as a
parameter constrained to be a permutation of these keys. -/
def matchingKeys (s : Store) (pfx : List Char) : List (List Char) :=
  (s.map (fun kb => kb.1)).filter (fun k => pfx.isPrefixOf k)

/-- A WAL record (`Record`): 64-bit offset plus opaque data bytes. -/
structure Record where
  Offset : Nat
  Data : List Nat
deriving DecidableEq

/-- The in-memory `S3WAL` state: the normalized key prefix and the cached
length (`length uint64`; 0 means empty/unknown). The S3 client and bucket
name carry no logical state and are omitted; the mutex serializes the
operations, which the sequential model reflects. -/
structure S3WAL where
  keyPrefix : List Char
  length : Nat
deriving DecidableEq

inductive ReadError
  | notFound
  | tooShort
  | offsetMismatch
  | checksumMismatch
deriving DecidableEq

inductive AppendErr
  | prepareFailed
  | storeWriteFailed
deriving DecidableEq

inductive LastRecordError
  | emptyLog
  | malformedKey
  | readFailed (e : ReadError)
deriving DecidableEq

/-! ## The five operations

The operations live in the `s3_log` namespace, mirroring the Go package
name (plain `Append` would collide with the core typeclass). -/

namespace s3_log

/-- `prepareBody`: `[8-byte BE offset][data][32-byte sha256(offset‖data)]`.
`none` exactly when the checksum is not 32 bytes (the Go code checks
`len(checksum) != sha256.Size`; the branch never fires). -/
def prepareBody (offset : Nat) (data : List Nat) : Option (List Nat) :=
  if (sha256 (natToBe64 offset ++ data)).length = 32 then
    some (natToBe64 offset ++ data ++ sha256 (natToBe64 offset ++ data))
  else none

/-- `validateChecksum`: the trailing 32 bytes equal the SHA-256 of all the
bytes before them. -/
def validateChecksum (full : List Nat) : Bool :=
  if full.length < 32 then false
  else sha256 (full.take (full.length - 32)) == full.drop (full.length - 32)

/-- `Read`: fetch the object at `getObjectKey offset`; check minimum length,
embedded offset, and checksum; return the parsed record. A missing object
reads as `notFound` (the S3 `GetObject` error path). `Read` never mutates
the cached length. -/
def Read (keyPfx : List Char) (store : Store) (offset : Nat) :
    Except ReadError Record :=
  match Store.get store (getObjectKey keyPfx offset) with
  | none => .error .notFound
  | some data =>
    if data.length < 8 + 32 then .error .tooShort
    else if be64ToNat (data.take 8) ≠ offset then .error .offsetMismatch
    else if validateChecksum data then
      .ok ⟨be64ToNat (data.take 8), (data.drop 8).take (data.length - 8 - 32)⟩
    else .error .checksumMismatch

/-- `Append`: compute `next = length + 1` in uint64 arithmetic, build the
framed body, `PutObject` it at `getObjectKey next`, and only on success set
the cached length to `next` and return it. `writeOk` says whether the store
write succeeds; on any failure the state components are returned
unchanged. -/
def Append (store : Store) (w : S3WAL) (data : List Nat) (writeOk : Bool) :
    Except AppendErr Nat × S3WAL × Store :=
  match prepareBody ((w.length + 1) % 2 ^ 64) data with
  | none => (.error .prepareFailed, w, store)
  | some body =>
    if writeOk then
      (.ok ((w.length + 1) % 2 ^ 64),
        { w with length := (w.length + 1) % 2 ^ 64 },
        Store.put store (getObjectKey w.keyPrefix ((w.length + 1) % 2 ^ 64)) body)
    else (.error .storeWriteFailed, w, store)

/-- One paginator step in `LastRecord`: keep the previous candidate when the
page is empty, else take the page's last key. -/
def lastKeyStep (acc : List Char) (page : List (List Char)) : List Char :=
  match page.getLast? with
  | some k => k
  | none => acc

/-- The paginator fold in `LastRecord`: the last key of the last nonempty
page (`""`, i.e. `[]`, when every page is empty). -/
def lastKeyOfPages (pages : List (List (List Char))) : List Char :=
  pages.foldl lastKeyStep []

/-- `LastRecord`: drain the paginator, take the last key; if nothing was
listed, set the cached length to 0 and fail with the empty-log error; if
the last key does not parse, fail without touching the cache; otherwise set
the cached length to the parsed offset and read the record there. -/
def LastRecord (store : Store) (w : S3WAL) (pages : List (List (List Char))) :
    Except LastRecordError Record × S3WAL :=
  if lastKeyOfPages pages = [] then
    (.error .emptyLog, { w with length := 0 })
  else
    match getOffsetFromKey (lastKeyOfPages pages) with
    | none => (.error .malformedKey, w)
    | some offset =>
      (match Read w.keyPrefix store offset with
       | .ok r => .ok r
       | .error e => .error (.readFailed e),
       { w with length := offset })

/-- One scan step in `Recover`: raise the running maximum when the key
parses to a larger offset; skip keys that do not parse. -/
def recoverStep (m : Nat) (key : List Char) : Nat :=
  match getOffsetFromKey key with
  | some o => if o > m then o else m
  | none => m

/-- The scan fold in `Recover`: the maximum decodable offset among the
listed keys, skipping keys that do not parse. -/
def recoverMax (keys : List (List Char)) : Nat :=
  keys.foldl recoverStep 0

/-- `Recover`: drain the paginator and set the cached length to the highest
decodable offset (0 when none); return that offset. -/
def Recover (w : S3WAL) (pages : List (List (List Char))) : Nat × S3WAL :=
  (recoverMax pages.flatten, { w with length := recoverMax pages.flatten })

/-- The keys `Truncate` deletes: every listed key whose parsed offset is
strictly greater than `afterOffset`; keys that do not parse are skipped. -/
def doomedKeys (keys : List (List Char)) (afterOffset : Nat) : List (List Char) :=
  keys.filter
    (fun key =>
      match getOffsetFromKey key with
      | some o => decide (afterOffset < o)
      | none => false)

/-- `Truncate`: delete the doomed keys (the batched ≤1000-key `DeleteObjects`
calls have the same overall effect as deleting the whole doomed set), then
set the cached length to `afterOffset` (the Go code writes 0 explicitly when
`afterOffset == 0`). -/
def Truncate (store : Store) (w : S3WAL) (pages : List (List (List Char)))
    (afterOffset : Nat) : S3WAL × Store :=
  ({ w with length := if afterOffset = 0 then 0 else afterOffset },
   store.filter (fun kb => !((doomedKeys pages.flatten afterOffset).contains kb.1)))

end s3_log

/-! ## Store lemmas -/

theorem find?_filter_of_pred (s : Store) (q : List Char → Bool) (k : List Char)
    (hq : q k = true) :
    (s.filter (fun kb => q kb.1)).find? (fun kb => kb.1 == k)
      = s.find? (fun kb => kb.1 == k) := by
  induction s with
  | nil => rfl
  | cons a t ih =>
    rw [List.filter_cons]
    by_cases hqa : q a.1 = true
    · simp only [hqa, if_true, List.find?_cons]
      cases hak : (a.1 == k) with
      | true => rfl
      | false => exact ih
    · have hqa' : q a.1 = false := by simpa using hqa
      have hak : (a.1 == k) = false := by
        rcases Bool.eq_false_or_eq_true (a.1 == k) with h | h
        · have heq : a.1 = k := by simpa using h
          rw [heq, hq] at hqa'
          cases hqa'
        · exact h
      simp only [hqa', if_false, List.find?_cons, hak]
      exact ih

theorem find?_filter_of_pred_none (s : Store) (q : List Char → Bool) (k : List Char)
    (hq : q k = false) :
    (s.filter (fun kb => q kb.1)).find? (fun kb => kb.1 == k) = none := by
  induction s with
  | nil => rfl
  | cons a t ih =>
    rw [List.filter_cons]
    by_cases hqa : q a.1 = true
    · have hak : (a.1 == k) = false := by
        rcases Bool.eq_false_or_eq_true (a.1 == k) with h | h
        · have heq : a.1 = k := by simpa using h
          rw [heq] at hqa
          rw [hqa] at hq
          cases hq
        · exact h
      simp only [hqa, if_true, List.find?_cons, hak]
      exact ih
    · have hqa' : q a.1 = false := by simpa using hqa
      simp only [hqa', if_false]
      exact ih

theorem Store.get_filter_eq (s : Store) (q : List Char → Bool) (k : List Char)
    (hq : q k = true) :
    Store.get (s.filter (fun kb => q kb.1)) k = Store.get s k := by
  simp only [Store.get, find?_filter_of_pred s q k hq]

theorem Store.get_filter_none (s : Store) (q : List Char → Bool) (k : List Char)
    (hq : q k = false) :
    Store.get (s.filter (fun kb => q kb.1)) k = none := by
  simp only [Store.get, find?_filter_of_pred_none s q k hq]
  rfl

theorem Store.get_put_self (s : Store) (key : List Char) (body : List Nat) :
    Store.get (Store.put s key body) key = some body := by
  simp [Store.get, Store.put, List.find?_cons]

theorem Store.get_put_ne (s : Store) (key k' : List Char) (body : List Nat)
    (h : k' ≠ key) :
    Store.get (Store.put s key body) k' = Store.get s k' := by
  have hne : (key == k') = false := by
    simp only [beq_eq_false_iff_ne, ne_eq]
    exact fun hc => h hc.symm
  simp only [Store.put, Store.get, List.find?_cons, hne]
  exact congrArg _ (find?_filter_of_pred s (fun x => !(x == key)) k'
    (by simp only [Bool.not_eq_true', beq_eq_false_iff_ne, ne_eq]; exact h))

theorem Store.get_isSome_of_mem (s : Store) (k : List Char)
    (h : k ∈ s.map (fun kb => kb.1)) : (Store.get s k).isSome = true := by
  induction s with
  | nil => simp at h
  | cons a t ih =>
    simp only [List.map_cons] at h
    rcases List.mem_cons.mp h with heq | hmem
    · simp [Store.get, List.find?_cons, heq.symm]
    · by_cases hak : (a.1 == k) = true
      · simp [Store.get, List.find?_cons, hak]
      · have hne : (a.1 == k) = false := by simpa using hak
        simp only [Store.get, List.find?_cons, hne]
        exact ih hmem

theorem Store.get_some_mem (s : Store) (k : List Char) (b : List Nat)
    (h : Store.get s k = some b) : (k, b) ∈ s := by
  simp only [Store.get, Option.map_eq_some'] at h
  rcases h with ⟨kb, hfind, hsnd⟩
  have hmem := List.mem_of_find?_eq_some hfind
  have hp := List.find?_some hfind
  have hfst : kb.1 = k := by simpa using hp
  have : kb = (k, b) := by
    rcases kb with ⟨x, y⟩
    simp only at hfst hsnd
    rw [hfst, hsnd]
  rwa [this] at hmem

/-! ## Framing and Read lemmas -/

theorem prepareBody_eq (offset : Nat) (data : List Nat) :
    s3_log.prepareBody offset data
      = some (natToBe64 offset ++ data ++ sha256 (natToBe64 offset ++ data)) := by
  simp [s3_log.prepareBody, length_sha256]

theorem validateChecksum_append (m : List Nat) :
    s3_log.validateChecksum (m ++ sha256 m) = true := by
  have hs := length_sha256 m
  have hlen : (m ++ sha256 m).length - 32 = m.length := by
    simp [hs]
  rw [s3_log.validateChecksum,
    if_neg (by simp only [List.length_append, hs]; omega), hlen,
    List.take_left, List.drop_left]
  simp

theorem Read_of_get_body (p : List Char) (store : Store) (o : Nat)
    (data : List Nat) (ho : o < 2 ^ 64)
    (hget : Store.get store (getObjectKey p o)
      = some (natToBe64 o ++ data ++ sha256 (natToBe64 o ++ data))) :
    s3_log.Read p store o = .ok ⟨o, data⟩ := by
  have hbe := length_natToBe64 o
  have hsha := length_sha256 (natToBe64 o ++ data)
  have hlenbody : (natToBe64 o ++ data ++ sha256 (natToBe64 o ++ data)).length
      = 40 + data.length := by
    simp only [List.length_append, hbe, hsha]
    omega
  have htake8 : (natToBe64 o ++ data ++ sha256 (natToBe64 o ++ data)).take 8
      = natToBe64 o := by
    rw [List.append_assoc, ← hbe, List.take_left]
  have hoff : be64ToNat ((natToBe64 o ++ data ++ sha256 (natToBe64 o ++ data)).take 8)
      = o := by
    rw [htake8, be64ToNat_natToBe64 o ho]
  have hval : s3_log.validateChecksum
      (natToBe64 o ++ data ++ sha256 (natToBe64 o ++ data)) = true :=
    validateChecksum_append (natToBe64 o ++ data)
  have hdata : (((natToBe64 o ++ data ++ sha256 (natToBe64 o ++ data)).drop 8).take
      ((natToBe64 o ++ data ++ sha256 (natToBe64 o ++ data)).length - 8 - 32)) = data := by
    rw [hlenbody]
    have h40 : 40 + data.length - 8 - 32 = data.length := by omega
    rw [h40, List.append_assoc, ← hbe, List.drop_left]
    exact List.take_left data _
  simp only [s3_log.Read, hget]
  rw [if_neg (by rw [hlenbody]; omega), if_neg (by rw [hoff]; simp),
    if_pos hval, hoff, hdata]

/-! ## Append unfoldings -/

theorem Append_ok (store : Store) (w : S3WAL) (data : List Nat) :
    s3_log.Append store w data true
      = (.ok ((w.length + 1) % 2 ^ 64),
         { w with length := (w.length + 1) % 2 ^ 64 },
         Store.put store (getObjectKey w.keyPrefix ((w.length + 1) % 2 ^ 64))
           (natToBe64 ((w.length + 1) % 2 ^ 64) ++ data
             ++ sha256 (natToBe64 ((w.length + 1) % 2 ^ 64) ++ data))) := by
  simp [s3_log.Append, prepareBody_eq]

theorem Append_fail (store : Store) (w : S3WAL) (data : List Nat) :
    s3_log.Append store w data false = (.error .storeWriteFailed, w, store) := by
  simp [s3_log.Append, prepareBody_eq]

/-! ## Fold lemmas for `Recover` and `LastRecord` -/

theorem foldl_recoverStep_le (keys : List (List Char)) (acc : Nat) :
    acc ≤ keys.foldl s3_log.recoverStep acc := by
  induction keys generalizing acc with
  | nil => simp
  | cons k t ih =>
    refine le_trans ?_ (ih (s3_log.recoverStep acc k))
    rw [s3_log.recoverStep]
    cases getOffsetFromKey k with
    | none => simp
    | some o =>
      by_cases h : o > acc <;> simp [h]
      omega

theorem foldl_recoverStep_ge (keys : List (List Char)) (acc : Nat)
    (key : List Char) (o : Nat) (hmem : key ∈ keys)
    (hdec : getOffsetFromKey key = some o) :
    o ≤ keys.foldl s3_log.recoverStep acc := by
  induction keys generalizing acc with
  | nil => simp at hmem
  | cons k t ih =>
    rcases List.mem_cons.mp hmem with heq | hmem'
    · subst heq
      refine le_trans ?_ (foldl_recoverStep_le t (s3_log.recoverStep acc key))
      rw [s3_log.recoverStep, hdec]
      by_cases h : o > acc <;> simp [h]
      omega
    · exact ih _ hmem'

theorem foldl_recoverStep_mem (keys : List (List Char)) (acc : Nat) :
    keys.foldl s3_log.recoverStep acc = acc
      ∨ ∃ key ∈ keys, getOffsetFromKey key = some (keys.foldl s3_log.recoverStep acc) := by
  induction keys generalizing acc with
  | nil => simp
  | cons k t ih =>
    rcases ih (s3_log.recoverStep acc k) with h | h
    · rw [List.foldl_cons, h]
      rw [s3_log.recoverStep]
      cases hdec : getOffsetFromKey k with
      | none => simp
      | some o =>
        by_cases ho : o > acc
        · refine Or.inr ⟨k, by simp, ?_⟩
          rw [hdec]
          simp [ho]
        · simp [ho]
    · rcases h with ⟨key, hmem, hdec⟩
      exact Or.inr ⟨key, by simp [hmem], by rwa [List.foldl_cons]⟩

theorem recoverMax_ge (keys : List (List Char)) (key : List Char) (o : Nat)
    (hmem : key ∈ keys) (hdec : getOffsetFromKey key = some o) :
    o ≤ s3_log.recoverMax keys :=
  foldl_recoverStep_ge keys 0 key o hmem hdec

theorem recoverMax_mem (keys : List (List Char)) :
    s3_log.recoverMax keys = 0
      ∨ ∃ key ∈ keys, getOffsetFromKey key = some (s3_log.recoverMax keys) :=
  foldl_recoverStep_mem keys 0

theorem foldl_recoverStep_filter (keys : List (List Char)) (acc : Nat) :
    (keys.filter (fun k => (getOffsetFromKey k).isSome)).foldl s3_log.recoverStep acc
      = keys.foldl s3_log.recoverStep acc := by
  induction keys generalizing acc with
  | nil => rfl
  | cons k t ih =>
    rw [List.filter_cons]
    cases hdec : getOffsetFromKey k with
    | none =>
      have hstep : s3_log.recoverStep acc k = acc := by rw [s3_log.recoverStep, hdec]
      simp only [hdec, Option.isSome_none, Bool.false_eq_true, if_false,
        List.foldl_cons, hstep]
      exact ih acc
    | some o =>
      simp only [hdec, Option.isSome_some, if_true, List.foldl_cons]
      exact ih _

theorem recoverMax_filter_decodable (keys : List (List Char)) :
    s3_log.recoverMax (keys.filter (fun k => (getOffsetFromKey k).isSome)) = s3_log.recoverMax keys :=
  foldl_recoverStep_filter keys 0

theorem foldl_lastKeyStep_eq (pages : List (List (List Char))) (acc : List Char) :
    pages.foldl s3_log.lastKeyStep acc = pages.flatten.getLastD acc := by
  induction pages generalizing acc with
  | nil => rfl
  | cons page t ih =>
    rw [List.foldl_cons, ih, List.flatten_cons]
    rw [List.getLastD_eq_getLast?, List.getLastD_eq_getLast?,
      List.getLast?_append]
    rw [s3_log.lastKeyStep]
    cases hpt : t.flatten.getLast? with
    | some k => simp
    | none =>
      cases hp : page.getLast? with
      | some k => simp
      | none => simp

theorem lastKeyOfPages_eq (pages : List (List (List Char))) :
    s3_log.lastKeyOfPages pages = pages.flatten.getLastD [] :=
  foldl_lastKeyStep_eq pages []

/-! ## Sorted listings -/

/-- Strict lexicographic sortedness of a key listing, as S3 delivers its
paginated results. -/
def keysSorted (l : List (List Char)) : Prop :=
  l.Pairwise (fun a b => List.Lex (· < ·) a b)

theorem mem_of_getLast?_eq (l : List (List Char)) (K : List Char)
    (hK : l.getLast? = some K) : K ∈ l := by
  induction l with
  | nil => cases hK
  | cons a t ih =>
    rcases t with _ | ⟨b, t2⟩
    · simp only [List.getLast?_singleton, Option.some_inj] at hK
      simp [hK]
    · rw [List.getLast?_cons_cons] at hK
      exact List.mem_cons.mpr (Or.inr (ih hK))

theorem keysSorted_lex_getLast (l : List (List Char)) (hs : keysSorted l)
    (K : List Char) (hK : l.getLast? = some K) :
    ∀ x ∈ l, x = K ∨ List.Lex (· < ·) x K := by
  induction l with
  | nil => cases hK
  | cons a t ih =>
    rcases t with _ | ⟨b, t2⟩
    · simp only [List.getLast?_singleton, Option.some_inj] at hK
      intro x hx
      simp only [List.mem_singleton] at hx
      exact Or.inl (hx.trans hK)
    · rw [List.getLast?_cons_cons] at hK
      have hpw := List.pairwise_cons.mp hs
      have ih2 := ih hpw.2 hK
      intro x hx
      rcases List.mem_cons.mp hx with hxa | hxt
      · subst hxa
        exact Or.inr (hpw.1 K (mem_of_getLast?_eq _ _ hK))
      · exact ih2 x hxt

/-! ## Listing membership lemmas -/

theorem mem_matchingKeys (s : Store) (pfx k : List Char) :
    k ∈ matchingKeys s pfx
      ↔ k ∈ s.map (fun kb => kb.1) ∧ pfx.isPrefixOf k = true := by
  simp [matchingKeys, List.mem_filter]

theorem mem_doomedKeys (keys : List (List Char)) (afterOffset : Nat)
    (k : List Char) :
    k ∈ s3_log.doomedKeys keys afterOffset
      ↔ k ∈ keys ∧ ∃ o, getOffsetFromKey k = some o ∧ afterOffset < o := by
  rw [s3_log.doomedKeys, List.mem_filter]
  constructor
  · rintro ⟨hmem, hp⟩
    refine ⟨hmem, ?_⟩
    cases hdec : getOffsetFromKey k with
    | none => rw [hdec] at hp; cases hp
    | some o =>
      rw [hdec] at hp
      exact ⟨o, rfl, by simpa using hp⟩
  · rintro ⟨hmem, o, hdec, hlt⟩
    refine ⟨hmem, ?_⟩
    rw [hdec]
    simpa using hlt

/-! ## Read dependence on the store -/

theorem Read_congr_get (p : List Char) (s1 s2 : Store) (o : Nat)
    (h : Store.get s1 (getObjectKey p o) = Store.get s2 (getObjectKey p o)) :
    s3_log.Read p s1 o = s3_log.Read p s2 o := by
  simp only [s3_log.Read, h]

theorem Read_notFound_of_get_none (p : List Char) (s : Store) (o : Nat)
    (h : Store.get s (getObjectKey p o) = none) :
    s3_log.Read p s o = .error .notFound := by
  simp [s3_log.Read, h]

/-! ## Claims -/

/-- Concrete prefix used by witnesses and counterexamples. -/
def walP : List Char := ['w', 'a', 'l']

/-- C5: the offset-to-key encoding decodes back to the offset for every
uint64 offset, and for `a < b` (both uint64) the encoded key of `a` is
lexicographically smaller than the encoded key of `b`; hence the encoding
is a bijection onto its image whose lexicographic order equals numeric
order. -/
theorem C5_key_encoding_order (p : List Char) (o a b : Nat) (ho : o < 2 ^ 64)
    (hab : a < b) (hb : b < 2 ^ 64) :
    getOffsetFromKey (getObjectKey p o) = some o
      ∧ List.Lex (· < ·) (getObjectKey p a) (getObjectKey p b) :=
  ⟨getOffsetFromKey_getObjectKey p o ho, getObjectKey_lt p a b hab hb⟩

/-- C5 witness at offset 3 and the pair 1 < 2. -/
theorem C5_key_encoding_order_witness :
    getOffsetFromKey (getObjectKey walP 3) = some 3
      ∧ List.Lex (· < ·) (getObjectKey walP 1) (getObjectKey walP 2) :=
  C5_key_encoding_order walP 3 1 2 (by norm_num) (by norm_num) (by norm_num)

/-- C4: for every uint64 offset and every data (empty included), the
serialized body is the 8-byte big-endian offset, then the data, then the
32-byte SHA-256 of (offset bytes ‖ data); its length is `40 + |data| ≥ 40`;
and reading that body back at the offset implied by its key returns exactly
`(offset, data)` with `|data| = total − 40`. -/
theorem C4_serialize_roundtrip (o : Nat) (data : List Nat) (p : List Char)
    (store : Store) (ho : o < 2 ^ 64)
    (hget : Store.get store (getObjectKey p o)
      = some (natToBe64 o ++ data ++ sha256 (natToBe64 o ++ data))) :
    s3_log.prepareBody o data
        = some (natToBe64 o ++ data ++ sha256 (natToBe64 o ++ data))
      ∧ (natToBe64 o ++ data ++ sha256 (natToBe64 o ++ data)).length
          = 40 + data.length
      ∧ 40 ≤ (natToBe64 o ++ data ++ sha256 (natToBe64 o ++ data)).length
      ∧ s3_log.Read p store o = .ok ⟨o, data⟩
      ∧ data.length = (natToBe64 o ++ data ++ sha256 (natToBe64 o ++ data)).length - 40 := by
  have hlen : (natToBe64 o ++ data ++ sha256 (natToBe64 o ++ data)).length
      = 40 + data.length := by
    simp only [List.length_append, length_natToBe64, length_sha256]
    omega
  exact ⟨prepareBody_eq o data, hlen, by omega,
    Read_of_get_body p store o data ho hget, by omega⟩

/-- C4 witness: offset 2 with two data bytes, read back from a singleton
store. -/
theorem C4_serialize_roundtrip_witness :
    s3_log.Read walP
      (Store.put [] (getObjectKey walP 2)
        (natToBe64 2 ++ [9, 9] ++ sha256 (natToBe64 2 ++ [9, 9]))) 2
      = .ok ⟨2, [9, 9]⟩ :=
  (C4_serialize_roundtrip 2 [9, 9] walP _ (by norm_num)
    (Store.get_put_self _ _ _)).2.2.2.1

/-- C1: when `Append` succeeds and returns offset `o`, then `o` is the
cached length before the call plus one (uint64 addition, i.e. mod `2^64`),
the new cached length equals `o`, and reading `o` from the resulting store
returns a record with offset `o` and exactly the appended data. -/
theorem C1_append_read (store : Store) (w : S3WAL) (data : List Nat)
    (writeOk : Bool) (o : Nat) (w' : S3WAL) (store' : Store)
    (h : s3_log.Append store w data writeOk = (.ok o, w', store')) :
    o = (w.length + 1) % 2 ^ 64
      ∧ w'.length = o
      ∧ s3_log.Read w.keyPrefix store' o = .ok ⟨o, data⟩ := by
  cases writeOk with
  | false =>
    rw [Append_fail] at h
    exact absurd (congrArg Prod.fst h) (by simp)
  | true =>
    rw [Append_ok] at h
    have ha : (Except.ok ((w.length + 1) % 2 ^ 64) : Except AppendErr Nat)
        = .ok o := congrArg Prod.fst h
    have hb : ({ w with length := (w.length + 1) % 2 ^ 64 } : S3WAL) = w' :=
      congrArg (fun t => t.2.1) h
    have hc : Store.put store (getObjectKey w.keyPrefix ((w.length + 1) % 2 ^ 64))
        (natToBe64 ((w.length + 1) % 2 ^ 64) ++ data
          ++ sha256 (natToBe64 ((w.length + 1) % 2 ^ 64) ++ data)) = store' :=
      congrArg (fun t => t.2.2) h
    have hoeq : (w.length + 1) % 2 ^ 64 = o := by
      injection ha
    refine ⟨hoeq.symm, ?_, ?_⟩
    · rw [← hb, ← hoeq]
    · rw [← hc, ← hoeq]
      exact Read_of_get_body _ _ _ _ (Nat.mod_lt _ (by norm_num))
        (Store.get_put_self _ _ _)

/-- C1 witness: appending one byte to the empty log at cached length 0. -/
theorem C1_append_read_witness :
    s3_log.Read walP
      (Store.put [] (getObjectKey walP ((0 + 1) % 2 ^ 64))
        (natToBe64 ((0 + 1) % 2 ^ 64) ++ [7]
          ++ sha256 (natToBe64 ((0 + 1) % 2 ^ 64) ++ [7])))
      ((0 + 1) % 2 ^ 64) = .ok ⟨(0 + 1) % 2 ^ 64, [7]⟩ :=
  (C1_append_read [] ⟨walP, 0⟩ [7] true _ _ _ (Append_ok [] ⟨walP, 0⟩ [7])).2.2

/-- C6: when the store write fails, `Append` returns the store-write error
with the cached length and the store unchanged (no record is appended), and
an immediately following attempt computes the same offset, the cached
length plus one (uint64 addition) — the very offset the failed call had
attempted. -/
theorem C6_append_failure (store : Store) (w : S3WAL) (data : List Nat) :
    s3_log.Append store w data false = (.error .storeWriteFailed, w, store)
      ∧ ∀ data2 : List Nat,
          (s3_log.Append store w data2 true).1
            = .ok ((w.length + 1) % 2 ^ 64) := by
  refine ⟨Append_fail store w data, fun data2 => ?_⟩
  rw [Append_ok]

/-- C9 counterexample: `Read(0)` does not always fail. If an object with a
well-formed body embedding offset 0 sits at the zero key, `Read 0` returns
it: the code has no special case for offset 0. -/
theorem C9_read_zero_counterexample :
    s3_log.Read walP
      (Store.put [] (getObjectKey walP 0)
        (natToBe64 0 ++ [] ++ sha256 (natToBe64 0 ++ [])))
      0 = .ok ⟨0, []⟩ :=
  Read_of_get_body walP _ 0 [] (by norm_num) (Store.get_put_self _ _ _)

/-- C9 amended: `Read(0)` fails with not-found whenever the store holds no
object at the zero key — in particular in every store written only through
`Append`, whose offsets start at 1. -/
theorem C9_read_zero (p : List Char) (store : Store)
    (h : Store.get store (getObjectKey p 0) = none) :
    s3_log.Read p store 0 = .error .notFound :=
  Read_notFound_of_get_none p store 0 h

/-- C9 witness: reading offset 0 from the empty store. -/
theorem C9_read_zero_witness : s3_log.Read walP [] 0 = .error .notFound :=
  C9_read_zero walP [] rfl

/-! ## Truncate store helpers -/

theorem get_truncStore_of_not_doomed (store : Store) (doomed : List (List Char))
    (key : List Char) (h : key ∉ doomed) :
    Store.get (store.filter (fun kb => !(doomed.contains kb.1))) key
      = Store.get store key :=
  Store.get_filter_eq store (fun x => !(doomed.contains x)) key (by simpa using h)

theorem get_truncStore_of_doomed (store : Store) (doomed : List (List Char))
    (key : List Char) (h : key ∈ doomed) :
    Store.get (store.filter (fun kb => !(doomed.contains kb.1))) key = none :=
  Store.get_filter_none store (fun x => !(doomed.contains x)) key (by simpa using h)

theorem mem_map_fst_filterStore (store : Store) (doomed : List (List Char))
    (key : List Char)
    (h : key ∈ (store.filter (fun kb => !(doomed.contains kb.1))).map (fun kb => kb.1)) :
    key ∈ store.map (fun kb => kb.1) ∧ key ∉ doomed := by
  rcases List.mem_map.mp h with ⟨kb, hmem, rfl⟩
  have h1 := List.mem_of_mem_filter hmem
  have h2 := (List.mem_filter.mp hmem).2
  exact ⟨List.mem_map_of_mem _ h1, by simpa using h2⟩

/-- C3: `Recover` (over a listing of the store under the prefix) always
succeeds; it returns the value it caches; every decodable listed key is
bounded by that value; the value is 0 or attained by some listed key; and
the value ignores the undecodable (malformed) keys, which are skipped
rather than aborting the scan. Transport failures of the listing are the
environment's, not the engine's: with the pages delivered, `Recover` is
total. -/
theorem C3_recover (w : S3WAL) (store : Store) (pages : List (List (List Char)))
    (hp : pages.flatten.Perm (matchingKeys store (w.keyPrefix ++ ['/']))) :
    (s3_log.Recover w pages).1 = (s3_log.Recover w pages).2.length
      ∧ (s3_log.Recover w pages).2.keyPrefix = w.keyPrefix
      ∧ (∀ key ∈ matchingKeys store (w.keyPrefix ++ ['/']), ∀ o : Nat,
          getOffsetFromKey key = some o → o ≤ (s3_log.Recover w pages).1)
      ∧ ((s3_log.Recover w pages).1 = 0
          ∨ ∃ key ∈ matchingKeys store (w.keyPrefix ++ ['/']),
              getOffsetFromKey key = some ((s3_log.Recover w pages).1))
      ∧ s3_log.recoverMax (pages.flatten.filter (fun x => (getOffsetFromKey x).isSome))
          = (s3_log.Recover w pages).1 := by
  refine ⟨rfl, rfl, ?_, ?_, ?_⟩
  · intro key hkey o hdec
    exact recoverMax_ge pages.flatten key o (hp.mem_iff.mpr hkey) hdec
  · rcases recoverMax_mem pages.flatten with h | ⟨key, hmem, hdec⟩
    · exact Or.inl h
    · exact Or.inr ⟨key, hp.mem_iff.mp hmem, hdec⟩
  · exact recoverMax_filter_decodable pages.flatten

/-- C3 witness: a store holding a record key for offset 4 and one malformed
key; the recovered maximum dominates the decodable offset 4. -/
theorem C3_recover_witness :
    4 ≤ (s3_log.Recover ⟨walP, 0⟩
      [[getObjectKey walP 4, walP ++ ['/', 'x']]]).1 :=
  (C3_recover ⟨walP, 0⟩
      [(getObjectKey walP 4, ([] : List Nat)), (walP ++ ['/', 'x'], [])]
      [[getObjectKey walP 4, walP ++ ['/', 'x']]]
      (by
        show List.Perm _ (matchingKeys _ (walP ++ ['/']))
        have he : matchingKeys
            [(getObjectKey walP 4, ([] : List Nat)), (walP ++ ['/', 'x'], [])]
            (walP ++ ['/'])
            = [getObjectKey walP 4, walP ++ ['/', 'x']] := by decide
        rw [he]
        exact List.Perm.refl _)).2.2.1
    (getObjectKey walP 4) (by decide) 4 (by decide)

/-- C2 counterexample: truncating an *empty* log at `after_offset = 5`
succeeds and caches length 5, but a subsequent `Recover` over the (still
empty) listing returns 0, not 5 — the claim's unconditional
`Recover() = k` fails. -/
theorem C2_truncate_counterexample :
    List.Perm (([] : List (List (List Char))).flatten)
        (matchingKeys ([] : Store) (walP ++ ['/']))
      ∧ s3_log.Truncate [] ⟨walP, 0⟩ [] 5 = (⟨walP, 5⟩, [])
      ∧ (s3_log.Recover (s3_log.Truncate [] ⟨walP, 0⟩ [] 5).1 []).1 = 0
      ∧ (0 : Nat) ≠ 5 := by
  refine ⟨List.Perm.refl _, ?_, rfl, by norm_num⟩
  decide

/-- C2 amended: a successful `Truncate(k)` (over a listing of the store)
sets the cached length to `k`; deletes exactly the records with offset
`> k` — afterwards every `Read(j)` with `k < j < 2^64` is not-found, while
objects at offsets `≤ k` and objects under malformed keys are untouched, so
`Read(j)` for `j ≤ k` behaves exactly as before; and a subsequent `Recover`
returns `k` provided `k = 0` or a record at offset `k` was originally
present (in general it returns the greatest surviving decodable offset). -/
theorem C2_truncate (store : Store) (w : S3WAL)
    (pages : List (List (List Char))) (k : Nat) (hk : k < 2 ^ 64)
    (hp : pages.flatten.Perm (matchingKeys store (w.keyPrefix ++ ['/']))) :
    (s3_log.Truncate store w pages k).1.length = k
      ∧ (s3_log.Truncate store w pages k).1.keyPrefix = w.keyPrefix
      ∧ (∀ j : Nat, j < 2 ^ 64 → k < j →
          Store.get (s3_log.Truncate store w pages k).2
            (getObjectKey w.keyPrefix j) = none)
      ∧ (∀ j : Nat, j < 2 ^ 64 → k < j →
          s3_log.Read w.keyPrefix (s3_log.Truncate store w pages k).2 j
            = .error .notFound)
      ∧ (∀ j : Nat, j ≤ k →
          Store.get (s3_log.Truncate store w pages k).2 (getObjectKey w.keyPrefix j)
            = Store.get store (getObjectKey w.keyPrefix j))
      ∧ (∀ j : Nat, j ≤ k →
          s3_log.Read w.keyPrefix (s3_log.Truncate store w pages k).2 j
            = s3_log.Read w.keyPrefix store j)
      ∧ (∀ key : List Char, getOffsetFromKey key = none →
          Store.get (s3_log.Truncate store w pages k).2 key = Store.get store key)
      ∧ (∀ pages2 : List (List (List Char)),
          pages2.flatten.Perm
            (matchingKeys (s3_log.Truncate store w pages k).2 (w.keyPrefix ++ ['/'])) →
          (k = 0 ∨ (Store.get store (getObjectKey w.keyPrefix k)).isSome = true) →
          (s3_log.Recover (s3_log.Truncate store w pages k).1 pages2).1 = k) := by
  have hT2 : (s3_log.Truncate store w pages k).2
      = store.filter
          (fun kb => !((s3_log.doomedKeys pages.flatten k).contains kb.1)) := rfl
  have hlen : (s3_log.Truncate store w pages k).1.length = k := by
    by_cases hk0 : k = 0
    · subst hk0
      rfl
    · show (if k = 0 then 0 else k) = k
      rw [if_neg hk0]
  have hdel : ∀ j : Nat, j < 2 ^ 64 → k < j →
      Store.get (s3_log.Truncate store w pages k).2
        (getObjectKey w.keyPrefix j) = none := by
    intro j hj hkj
    cases hg : Store.get store (getObjectKey w.keyPrefix j) with
    | none =>
      by_cases hd : getObjectKey w.keyPrefix j ∈ s3_log.doomedKeys pages.flatten k
      · rw [hT2]
        exact get_truncStore_of_doomed _ _ _ hd
      · rw [hT2, get_truncStore_of_not_doomed _ _ _ hd, hg]
    | some b =>
      have hmem : (getObjectKey w.keyPrefix j, b) ∈ store :=
        Store.get_some_mem _ _ _ hg
      have hmk : getObjectKey w.keyPrefix j
          ∈ matchingKeys store (w.keyPrefix ++ ['/']) :=
        (mem_matchingKeys _ _ _).mpr
          ⟨List.mem_map_of_mem _ hmem, isPrefixOf_getObjectKey _ _⟩
      have hd : getObjectKey w.keyPrefix j ∈ s3_log.doomedKeys pages.flatten k :=
        (mem_doomedKeys _ _ _).mpr
          ⟨hp.mem_iff.mpr hmk, j, getOffsetFromKey_getObjectKey _ j hj, hkj⟩
      rw [hT2]
      exact get_truncStore_of_doomed _ _ _ hd
  have hkeep : ∀ j : Nat, j ≤ k →
      Store.get (s3_log.Truncate store w pages k).2 (getObjectKey w.keyPrefix j)
        = Store.get store (getObjectKey w.keyPrefix j) := by
    intro j hjk
    have hnd : getObjectKey w.keyPrefix j ∉ s3_log.doomedKeys pages.flatten k := by
      intro hd
      obtain ⟨-, o, hdec, hlt⟩ := (mem_doomedKeys _ _ _).mp hd
      rw [getOffsetFromKey_getObjectKey _ j (by omega)] at hdec
      injection hdec with ho
      omega
    rw [hT2]
    exact get_truncStore_of_not_doomed _ _ _ hnd
  refine ⟨hlen, rfl, hdel,
    fun j hj hkj => Read_notFound_of_get_none _ _ _ (hdel j hj hkj),
    hkeep, fun j hjk => Read_congr_get _ _ _ _ (hkeep j hjk), ?_, ?_⟩
  · intro key hnone
    have hnd : key ∉ s3_log.doomedKeys pages.flatten k := by
      intro hd
      obtain ⟨-, o, hdec, -⟩ := (mem_doomedKeys _ _ _).mp hd
      rw [hnone] at hdec
      cases hdec
    rw [hT2]
    exact get_truncStore_of_not_doomed _ _ _ hnd
  · intro pages2 hp2 hpres
    show s3_log.recoverMax pages2.flatten = k
    have hbound : ∀ key ∈ pages2.flatten, ∀ o : Nat,
        getOffsetFromKey key = some o → o ≤ k := by
      intro key hkey o hdec
      have hmk2 := (mem_matchingKeys _ _ _).mp (hp2.mem_iff.mp hkey)
      obtain ⟨hmap2, hpfx⟩ := hmk2
      rw [hT2] at hmap2
      obtain ⟨hmapS, hnd⟩ := mem_map_fst_filterStore _ _ _ hmap2
      by_contra hgt
      push_neg at hgt
      exact hnd ((mem_doomedKeys _ _ _).mpr
        ⟨hp.mem_iff.mpr ((mem_matchingKeys _ _ _).mpr ⟨hmapS, hpfx⟩), o, hdec, hgt⟩)
    rcases hpres with hk0 | hsome
    · subst hk0
      rcases recoverMax_mem pages2.flatten with h0 | ⟨key, hkey, hdec⟩
      · exact h0
      · exact Nat.le_zero.mp (hbound key hkey _ hdec)
    · obtain ⟨b, hb⟩ := Option.isSome_iff_exists.mp hsome
      have hnd : getObjectKey w.keyPrefix k ∉ s3_log.doomedKeys pages.flatten k := by
        intro hd
        obtain ⟨-, o, hdec, hlt⟩ := (mem_doomedKeys _ _ _).mp hd
        rw [getOffsetFromKey_getObjectKey _ k hk] at hdec
        injection hdec with ho
        omega
      have hget2 : Store.get (s3_log.Truncate store w pages k).2
          (getObjectKey w.keyPrefix k) = some b := by
        rw [hT2, get_truncStore_of_not_doomed _ _ _ hnd, hb]
      have hfl2 : getObjectKey w.keyPrefix k ∈ pages2.flatten :=
        hp2.mem_iff.mpr ((mem_matchingKeys _ _ _).mpr
          ⟨List.mem_map_of_mem _ (Store.get_some_mem _ _ _ hget2),
            isPrefixOf_getObjectKey _ _⟩)
      have hge : k ≤ s3_log.recoverMax pages2.flatten :=
        recoverMax_ge _ _ _ hfl2 (getOffsetFromKey_getObjectKey _ k hk)
      have hle : s3_log.recoverMax pages2.flatten ≤ k := by
        rcases recoverMax_mem pages2.flatten with h0 | ⟨key, hkey, hdec⟩
        · omega
        · exact hbound key hkey _ hdec
      omega

/-- A well-formed record body with empty data, used by concrete stores in
witnesses. -/
def cBody (o : Nat) : List Nat :=
  natToBe64 o ++ [] ++ sha256 (natToBe64 o ++ [])

/-- A two-record store (offsets 1 and 2) and its one-page listing. -/
def cStore2 : Store :=
  [(getObjectKey walP 1, cBody 1), (getObjectKey walP 2, cBody 2)]

def cPages2 : List (List (List Char)) :=
  [[getObjectKey walP 1, getObjectKey walP 2]]

/-- C2 witness: truncating the two-record store after offset 1 makes
`Read 2` not-found. -/
theorem C2_truncate_witness :
    s3_log.Read walP (s3_log.Truncate cStore2 ⟨walP, 0⟩ cPages2 1).2 2
      = .error .notFound :=
  (C2_truncate cStore2 ⟨walP, 0⟩ cPages2 1 (by norm_num)
    (by
      show List.Perm _ (matchingKeys _ (walP ++ ['/']))
      have he : matchingKeys cStore2 (walP ++ ['/'])
          = [getObjectKey walP 1, getObjectKey walP 2] := by decide
      rw [he]
      exact List.Perm.refl _)).2.2.2.1 2 (by norm_num) (by norm_num)

/-! ## LastRecord claims -/

/-- C10: `LastRecord` mutates the cached length even on error paths — an
empty listing sets it to 0 before the empty-log failure, and a listing with
a decodable last key sets it to that key's offset regardless of whether the
final `Read` succeeds. -/
theorem C10_lastRecord_cache (store : Store) (w : S3WAL)
    (pages : List (List (List Char))) :
    (pages.flatten = [] →
        s3_log.LastRecord store w pages = (.error .emptyLog, { w with length := 0 }))
      ∧ (∀ (K : List Char) (o : Nat), s3_log.lastKeyOfPages pages = K →
          getOffsetFromKey K = some o →
          (s3_log.LastRecord store w pages).2 = { w with length := o }) := by
  constructor
  · intro hfl
    have hlk : s3_log.lastKeyOfPages pages = [] := by
      rw [lastKeyOfPages_eq, hfl]
      rfl
    simp [s3_log.LastRecord, hlk]
  · intro K o hK hdec
    have hKne : K ≠ [] := by
      intro h
      subst h
      rw [show getOffsetFromKey [] = none from rfl] at hdec
      cases hdec
    subst hK
    simp only [s3_log.LastRecord, if_neg hKne, hdec]

/-- C10 witness: a page listing the key of offset 3 over the empty store —
the read fails with not-found, yet the cached length is already 3. -/
theorem C10_lastRecord_cache_witness :
    (s3_log.LastRecord [] ⟨walP, 0⟩ [[getObjectKey walP 3]]).2 = ⟨walP, 3⟩
      ∧ (s3_log.LastRecord [] ⟨walP, 0⟩ [[getObjectKey walP 3]]).1
          = .error (.readFailed .notFound) := by
  constructor
  · exact (C10_lastRecord_cache [] ⟨walP, 0⟩ [[getObjectKey walP 3]]).2
      (getObjectKey walP 3) 3 rfl (by decide)
  · rfl

/-- C7 counterexample: with a valid record at offset 1 and a lexicographically
greater malformed key `wal/x` in the listing, the claim demands that the
malformed key be skipped and record 1 be returned; the code instead fails
with the malformed-key parse error (and record 1 is perfectly readable). -/
theorem C7_lastRecord_counterexample :
    List.Perm
        ([[getObjectKey walP 1, walP ++ ['/', 'x']]] :
          List (List (List Char))).flatten
        (matchingKeys [(getObjectKey walP 1, cBody 1), (walP ++ ['/', 'x'], [])]
          (walP ++ ['/']))
      ∧ keysSorted ([[getObjectKey walP 1, walP ++ ['/', 'x']]] :
          List (List (List Char))).flatten
      ∧ s3_log.Read walP
          [(getObjectKey walP 1, cBody 1), (walP ++ ['/', 'x'], [])] 1
          = .ok ⟨1, []⟩
      ∧ (s3_log.LastRecord
          [(getObjectKey walP 1, cBody 1), (walP ++ ['/', 'x'], [])]
          ⟨walP, 0⟩ [[getObjectKey walP 1, walP ++ ['/', 'x']]]).1
          = .error .malformedKey := by
  refine ⟨?_, ?_, ?_, by rfl⟩
  · have he : matchingKeys
        [(getObjectKey walP 1, cBody 1), (walP ++ ['/', 'x'], [])]
        (walP ++ ['/'])
        = [getObjectKey walP 1, walP ++ ['/', 'x']] := by decide
    rw [he]
    exact List.Perm.refl _
  · simp only [keysSorted, List.flatten]
    decide
  · exact Read_of_get_body walP _ 1 [] (by norm_num) rfl

/-- C7 amended: with a sorted listing, `LastRecord` fails with the empty-log
error (caching 0) when nothing is listed; otherwise it takes the
lexicographically greatest listed key — malformed or not. If that key
decodes, the cached length becomes its offset and the record there is read
and returned; if it does not decode, `LastRecord` fails with a
malformed-key error without skipping to any valid key and without touching
the cache. -/
theorem C7_lastRecord (store : Store) (w : S3WAL)
    (pages : List (List (List Char)))
    (hp : pages.flatten.Perm (matchingKeys store (w.keyPrefix ++ ['/'])))
    (hs : keysSorted pages.flatten) :
    (pages.flatten = [] →
        s3_log.LastRecord store w pages = (.error .emptyLog, { w with length := 0 }))
      ∧ (∀ K : List Char, pages.flatten.getLast? = some K →
          (∀ x ∈ pages.flatten, x = K ∨ List.Lex (· < ·) x K)
            ∧ (∀ o : Nat, getOffsetFromKey K = some o →
                s3_log.LastRecord store w pages
                  = (match s3_log.Read w.keyPrefix store o with
                     | .ok r => .ok r
                     | .error e => .error (.readFailed e),
                     { w with length := o }))
            ∧ (getOffsetFromKey K = none →
                s3_log.LastRecord store w pages = (.error .malformedKey, w))) := by
  constructor
  · intro hfl
    have hlk : s3_log.lastKeyOfPages pages = [] := by
      rw [lastKeyOfPages_eq, hfl]
      rfl
    simp [s3_log.LastRecord, hlk]
  · intro K hK
    have hKfl := mem_of_getLast?_eq _ _ hK
    have hpfx := ((mem_matchingKeys _ _ _).mp (hp.mem_iff.mp hKfl)).2
    have hKne : K ≠ [] := by
      intro h
      subst h
      rw [List.isPrefixOf_iff_prefix] at hpfx
      have := List.prefix_nil.mp hpfx
      simp at this
    have hlk : s3_log.lastKeyOfPages pages = K := by
      rw [lastKeyOfPages_eq, List.getLastD_eq_getLast?, hK]
      rfl
    refine ⟨keysSorted_lex_getLast _ hs K hK, fun o hdec => ?_, fun hdec => ?_⟩
    · simp only [s3_log.LastRecord, hlk, if_neg hKne, hdec]
    · simp only [s3_log.LastRecord, hlk, if_neg hKne, hdec]

/-- C7 witness: a single listed record key (offset 1) over a store holding
that record — `LastRecord` returns the record and caches length 1. -/
theorem C7_lastRecord_witness :
    s3_log.LastRecord [(getObjectKey walP 1, cBody 1)] ⟨walP, 0⟩
        [[getObjectKey walP 1]]
      = (.ok ⟨1, []⟩, ⟨walP, 1⟩) := by
  have h := ((C7_lastRecord [(getObjectKey walP 1, cBody 1)] ⟨walP, 0⟩
      [[getObjectKey walP 1]]
      (by
        have he : matchingKeys [(getObjectKey walP 1, cBody 1)] (walP ++ ['/'])
            = [getObjectKey walP 1] := by decide
        show List.Perm _ (matchingKeys _ (walP ++ ['/']))
        rw [he]
        exact List.Perm.refl _)
      (by
        simp only [keysSorted, List.flatten]
        decide)).2
    (getObjectKey walP 1) (by decide)).2.1 1 (by decide)
  rw [h, Read_of_get_body walP [(getObjectKey walP 1, cBody 1)] 1 []
    (by norm_num) rfl]

/-! ## Reachability and the contiguity invariant (C8) -/

theorem LastRecord_empty (store : Store) (w : S3WAL)
    (pages : List (List (List Char))) (h : pages.flatten = []) :
    s3_log.LastRecord store w pages = (.error .emptyLog, { w with length := 0 }) := by
  have hlk : s3_log.lastKeyOfPages pages = [] := by
    rw [lastKeyOfPages_eq, h]
    rfl
  simp [s3_log.LastRecord, hlk]

theorem LastRecord_snd_of_decode (store : Store) (w : S3WAL)
    (pages : List (List (List Char))) (K : List Char) (o : Nat)
    (hK : s3_log.lastKeyOfPages pages = K) (hdec : getOffsetFromKey K = some o) :
    (s3_log.LastRecord store w pages).2 = { w with length := o } := by
  have hKne : K ≠ [] := by
    intro h
    subst h
    rw [show getOffsetFromKey [] = none from rfl] at hdec
    cases hdec
  subst hK
  simp only [s3_log.LastRecord, if_neg hKne, hdec]

/-- The state invariant: a valid uint64 cached length, every stored object a
record key with offset in `[1, length]`, and every offset in `[1, length]`
present. -/
def WalInv (st : Store × S3WAL) : Prop :=
  st.2.length < 2 ^ 64
    ∧ (∀ kb ∈ st.1, ∃ i : Nat, 1 ≤ i ∧ i ≤ st.2.length
        ∧ kb.1 = getObjectKey st.2.keyPrefix i)
    ∧ (∀ i : Nat, 1 ≤ i → i ≤ st.2.length →
        (Store.get st.1 (getObjectKey st.2.keyPrefix i)).isSome = true)

theorem recoverMax_of_inv (store : Store) (p : List Char) (L : Nat)
    (hL : L < 2 ^ 64)
    (hkeys : ∀ kb ∈ store, ∃ i : Nat, 1 ≤ i ∧ i ≤ L ∧ kb.1 = getObjectKey p i)
    (hpres : ∀ i : Nat, 1 ≤ i → i ≤ L →
      (Store.get store (getObjectKey p i)).isSome = true)
    (keys : List (List Char))
    (hperm : keys.Perm (matchingKeys store (p ++ ['/']))) :
    s3_log.recoverMax keys = L := by
  have hbound : ∀ key ∈ keys, ∀ o : Nat, getOffsetFromKey key = some o → o ≤ L := by
    intro key hkey o hdec
    have hmk := (mem_matchingKeys _ _ _).mp (hperm.mem_iff.mp hkey)
    rcases List.mem_map.mp hmk.1 with ⟨kb, hkb, hfst⟩
    rcases hkeys kb hkb with ⟨i, hi1, hiL, hkbi⟩
    rw [← hfst, hkbi, getOffsetFromKey_getObjectKey p i (by omega)] at hdec
    injection hdec with ho
    omega
  rcases Nat.eq_zero_or_pos L with hL0 | hL1
  · subst hL0
    rcases recoverMax_mem keys with h0 | ⟨key, hkey, hdec⟩
    · exact h0
    · exact Nat.le_zero.mp (hbound key hkey _ hdec)
  · obtain ⟨b, hb⟩ := Option.isSome_iff_exists.mp (hpres L hL1 (le_refl L))
    have hmemL : getObjectKey p L ∈ keys :=
      hperm.mem_iff.mpr ((mem_matchingKeys _ _ _).mpr
        ⟨List.mem_map_of_mem _ (Store.get_some_mem _ _ _ hb),
          isPrefixOf_getObjectKey _ _⟩)
    have hge := recoverMax_ge keys _ L hmemL (getOffsetFromKey_getObjectKey p L hL)
    have hle : s3_log.recoverMax keys ≤ L := by
      rcases recoverMax_mem keys with h0 | ⟨key, hkey, hdec⟩
      · omega
      · exact hbound key hkey _ hdec
    omega

theorem getLast?_ne_none (l : List (List Char)) (h : l ≠ []) :
    l.getLast? ≠ none := by
  induction l with
  | nil => exact absurd rfl h
  | cons a t ih =>
    cases t with
    | nil => simp
    | cons b t2 =>
      rw [List.getLast?_cons_cons]
      exact ih (by simp)

theorem getLast_key_of_inv (store : Store) (p : List Char) (L : Nat)
    (hL : L < 2 ^ 64)
    (hkeys : ∀ kb ∈ store, ∃ i : Nat, 1 ≤ i ∧ i ≤ L ∧ kb.1 = getObjectKey p i)
    (hpres : ∀ i : Nat, 1 ≤ i → i ≤ L →
      (Store.get store (getObjectKey p i)).isSome = true)
    (keys : List (List Char))
    (hperm : keys.Perm (matchingKeys store (p ++ ['/'])))
    (hs : keysSorted keys) (hne : keys ≠ []) :
    keys.getLast? = some (getObjectKey p L) := by
  cases hK : keys.getLast? with
  | none => exact absurd hK (getLast?_ne_none keys hne)
  | some K =>
    have hKmem := mem_of_getLast?_eq _ _ hK
    have hmk := (mem_matchingKeys _ _ _).mp (hperm.mem_iff.mp hKmem)
    rcases List.mem_map.mp hmk.1 with ⟨kb, hkb, hfst⟩
    rcases hkeys kb hkb with ⟨i, hi1, hiL, hkbi⟩
    have hKi : K = getObjectKey p i := by rw [← hfst, hkbi]
    obtain ⟨b, hb⟩ := Option.isSome_iff_exists.mp (hpres L (by omega) (le_refl L))
    have hmemL : getObjectKey p L ∈ keys :=
      hperm.mem_iff.mpr ((mem_matchingKeys _ _ _).mpr
        ⟨List.mem_map_of_mem _ (Store.get_some_mem _ _ _ hb),
          isPrefixOf_getObjectKey _ _⟩)
    rcases keysSorted_lex_getLast keys hs K hK _ hmemL with heq | hlex
    · rw [← heq]
    · exfalso
      rw [hKi] at hlex
      rcases Nat.lt_or_ge i L with hilt | hige
      · exact absurd hlex (asymm (getObjectKey_lt p i L hilt hL))
      · have hiL2 : i = L := by omega
        subst hiL2
        exact absurd hlex (irrefl _)

/-- One operation of the Log Engine, as an unconstrained transition: the
five public calls with any arguments, the listing-based ones consuming any
paginated listing of the store (sorted for `LastRecord`, as S3 guarantees). -/
inductive WalStep : Store × S3WAL → Store × S3WAL → Prop
  | append (store : Store) (w : S3WAL) (data : List Nat) (writeOk : Bool) :
      WalStep (store, w)
        ((s3_log.Append store w data writeOk).2.2,
         (s3_log.Append store w data writeOk).2.1)
  | read (store : Store) (w : S3WAL) (offset : Nat) : WalStep (store, w) (store, w)
  | lastRecord (store : Store) (w : S3WAL) (pages : List (List (List Char)))
      (hp : pages.flatten.Perm (matchingKeys store (w.keyPrefix ++ ['/'])))
      (hs : keysSorted pages.flatten) :
      WalStep (store, w) (store, (s3_log.LastRecord store w pages).2)
  | recover (store : Store) (w : S3WAL) (pages : List (List (List Char)))
      (hp : pages.flatten.Perm (matchingKeys store (w.keyPrefix ++ ['/']))) :
      WalStep (store, w) (store, (s3_log.Recover w pages).2)
  | truncate (store : Store) (w : S3WAL) (pages : List (List (List Char)))
      (afterOffset : Nat)
      (hp : pages.flatten.Perm (matchingKeys store (w.keyPrefix ++ ['/']))) :
      WalStep (store, w)
        ((s3_log.Truncate store w pages afterOffset).2,
         (s3_log.Truncate store w pages afterOffset).1)

/-- States reachable from a fresh WAL over an empty store by the five
operations, unrestricted (the claim's transition system). -/
inductive Reachable : Store × S3WAL → Prop
  | init (p : List Char) : Reachable ([], ⟨p, 0⟩)
  | step (st st' : Store × S3WAL) :
      Reachable st → WalStep st st' → Reachable st'

/-- The guarded transitions of the amended claim: a successful `Append` only
below the uint64 ceiling, and `Truncate` only with
`after_offset ≤ cached length`. -/
inductive WalStepG : Store × S3WAL → Store × S3WAL → Prop
  | append (store : Store) (w : S3WAL) (data : List Nat) (writeOk : Bool)
      (hov : writeOk = true → w.length + 1 < 2 ^ 64) :
      WalStepG (store, w)
        ((s3_log.Append store w data writeOk).2.2,
         (s3_log.Append store w data writeOk).2.1)
  | read (store : Store) (w : S3WAL) (offset : Nat) : WalStepG (store, w) (store, w)
  | lastRecord (store : Store) (w : S3WAL) (pages : List (List (List Char)))
      (hp : pages.flatten.Perm (matchingKeys store (w.keyPrefix ++ ['/'])))
      (hs : keysSorted pages.flatten) :
      WalStepG (store, w) (store, (s3_log.LastRecord store w pages).2)
  | recover (store : Store) (w : S3WAL) (pages : List (List (List Char)))
      (hp : pages.flatten.Perm (matchingKeys store (w.keyPrefix ++ ['/']))) :
      WalStepG (store, w) (store, (s3_log.Recover w pages).2)
  | truncate (store : Store) (w : S3WAL) (pages : List (List (List Char)))
      (afterOffset : Nat)
      (hp : pages.flatten.Perm (matchingKeys store (w.keyPrefix ++ ['/'])))
      (hk : afterOffset ≤ w.length) :
      WalStepG (store, w)
        ((s3_log.Truncate store w pages afterOffset).2,
         (s3_log.Truncate store w pages afterOffset).1)

inductive ReachableG : Store × S3WAL → Prop
  | init (p : List Char) : ReachableG ([], ⟨p, 0⟩)
  | step (st st' : Store × S3WAL) :
      ReachableG st → WalStepG st st' → ReachableG st'

theorem WalInv_put (store : Store) (w : S3WAL) (body : List Nat)
    (hov : w.length + 1 < 2 ^ 64) (hinv : WalInv (store, w)) :
    WalInv (Store.put store (getObjectKey w.keyPrefix (w.length + 1)) body,
            { w with length := w.length + 1 }) := by
  dsimp only [WalInv] at hinv ⊢
  obtain ⟨hL, hkeys, hpres⟩ := hinv
  refine ⟨hov, ?_, ?_⟩
  · intro kb hkb
    rcases List.mem_cons.mp hkb with heq | hmem
    · exact ⟨w.length + 1, by omega, le_refl _, by rw [heq]⟩
    · rcases hkeys kb (List.mem_of_mem_filter hmem) with ⟨i, h1, h2, h3⟩
      exact ⟨i, h1, by omega, h3⟩
  · intro i h1 h2
    rcases Nat.lt_or_ge i (w.length + 1) with hlt | hge
    · have hne : getObjectKey w.keyPrefix i ≠ getObjectKey w.keyPrefix (w.length + 1) := by
        intro hc
        have := getObjectKey_injective _ _ _ hc
        omega
      rw [Store.get_put_ne _ _ _ _ hne]
      exact hpres i h1 (by omega)
    · have hieq : i = w.length + 1 := by omega
      subst hieq
      rw [Store.get_put_self]
      rfl

theorem WalInv_truncate (store : Store) (w : S3WAL)
    (pages : List (List (List Char))) (k : Nat) (hk : k ≤ w.length)
    (hperm : pages.flatten.Perm (matchingKeys store (w.keyPrefix ++ ['/'])))
    (hinv : WalInv (store, w)) :
    WalInv ((s3_log.Truncate store w pages k).2, (s3_log.Truncate store w pages k).1) := by
  dsimp only [WalInv] at hinv ⊢
  obtain ⟨hL, hkeys, hpres⟩ := hinv
  have hT2 : (s3_log.Truncate store w pages k).2
      = store.filter
          (fun kb => !((s3_log.doomedKeys pages.flatten k).contains kb.1)) := rfl
  have hT1len : (s3_log.Truncate store w pages k).1.length = k := by
    by_cases hk0 : k = 0
    · subst hk0
      rfl
    · show (if k = 0 then 0 else k) = k
      rw [if_neg hk0]
  have hT1p : (s3_log.Truncate store w pages k).1.keyPrefix = w.keyPrefix := rfl
  refine ⟨?_, ?_, ?_⟩
  · rw [hT1len]
    omega
  · intro kb hkb
    rw [hT2] at hkb
    have hmemS := List.mem_of_mem_filter hkb
    have hnd : kb.1 ∉ s3_log.doomedKeys pages.flatten k := by
      simpa using (List.mem_filter.mp hkb).2
    rcases hkeys kb hmemS with ⟨i, h1, h2, h3⟩
    refine ⟨i, h1, ?_, by rw [hT1p]; exact h3⟩
    rw [hT1len]
    by_contra hgt
    push_neg at hgt
    apply hnd
    rw [h3]
    refine (mem_doomedKeys _ _ _).mpr
      ⟨hperm.mem_iff.mpr ((mem_matchingKeys _ _ _).mpr ⟨?_, isPrefixOf_getObjectKey _ _⟩),
        i, getOffsetFromKey_getObjectKey _ i (by omega), hgt⟩
    exact List.mem_map.mpr ⟨kb, hmemS, h3⟩
  · intro i h1 h2
    rw [hT1len] at h2
    rw [hT1p, hT2]
    have hnd : getObjectKey w.keyPrefix i ∉ s3_log.doomedKeys pages.flatten k := by
      intro hd
      obtain ⟨-, o, hdec, hlt⟩ := (mem_doomedKeys _ _ _).mp hd
      rw [getOffsetFromKey_getObjectKey _ i (by omega)] at hdec
      injection hdec with ho
      omega
    rw [get_truncStore_of_not_doomed _ _ _ hnd]
    exact hpres i h1 (by omega)

theorem WalInv_lastRecord (store : Store) (w : S3WAL)
    (pages : List (List (List Char)))
    (hperm : pages.flatten.Perm (matchingKeys store (w.keyPrefix ++ ['/'])))
    (hs : keysSorted pages.flatten) (hinv : WalInv (store, w)) :
    WalInv (store, (s3_log.LastRecord store w pages).2) := by
  dsimp only [WalInv] at hinv ⊢
  obtain ⟨hL, hkeys, hpres⟩ := hinv
  by_cases hfl : pages.flatten = []
  · rw [LastRecord_empty store w pages hfl]
    have hm : matchingKeys store (w.keyPrefix ++ ['/']) = [] := by
      have hp2 := hperm
      rw [hfl] at hp2
      exact (hp2.symm).eq_nil
    have hstore : store = [] := by
      cases hst : store with
      | nil => rfl
      | cons kb rest =>
        exfalso
        rcases hkeys kb (by rw [hst]; simp) with ⟨i, h1, h2, h3⟩
        have hmem : kb.1 ∈ matchingKeys store (w.keyPrefix ++ ['/']) :=
          (mem_matchingKeys _ _ _).mpr
            ⟨List.mem_map_of_mem _ (by rw [hst]; simp),
              by rw [h3]; exact isPrefixOf_getObjectKey _ _⟩
        rw [hm] at hmem
        cases hmem
    subst hstore
    exact ⟨by norm_num, by simp, fun i h1 h2 => absurd (h1.trans h2) (by norm_num)⟩
  · have hK := getLast_key_of_inv store w.keyPrefix w.length hL hkeys hpres
      pages.flatten hperm hs hfl
    have hlk : s3_log.lastKeyOfPages pages = getObjectKey w.keyPrefix w.length := by
      rw [lastKeyOfPages_eq, List.getLastD_eq_getLast?, hK]
      rfl
    rw [LastRecord_snd_of_decode store w pages _ w.length hlk
      (getOffsetFromKey_getObjectKey _ _ hL)]
    exact ⟨hL, hkeys, hpres⟩

theorem WalInv_recover (store : Store) (w : S3WAL)
    (pages : List (List (List Char)))
    (hperm : pages.flatten.Perm (matchingKeys store (w.keyPrefix ++ ['/'])))
    (hinv : WalInv (store, w)) :
    WalInv (store, (s3_log.Recover w pages).2) := by
  dsimp only [WalInv] at hinv ⊢
  obtain ⟨hL, hkeys, hpres⟩ := hinv
  show WalInv (store, { w with length := s3_log.recoverMax pages.flatten })
  rw [recoverMax_of_inv store w.keyPrefix w.length hL hkeys hpres
    pages.flatten hperm]
  exact ⟨hL, hkeys, hpres⟩

theorem walInv_of_reachableG (st : Store × S3WAL) (h : ReachableG st) :
    WalInv st := by
  induction h with
  | init p =>
    exact ⟨by norm_num, by simp, fun i h1 h2 => absurd (h1.trans h2) (by norm_num)⟩
  | step st st' hr hstep ih =>
    cases hstep with
    | append store w data writeOk hov =>
      cases writeOk with
      | false =>
        rw [Append_fail]
        exact ih
      | true =>
        have hov2 := hov rfl
        rw [Append_ok, Nat.mod_eq_of_lt hov2]
        exact WalInv_put store w _ hov2 ih
    | read store w offset => exact ih
    | lastRecord store w pages hp hs => exact WalInv_lastRecord store w pages hp hs ih
    | recover store w pages hp => exact WalInv_recover store w pages hp ih
    | truncate store w pages afterOffset hp hk =>
      exact WalInv_truncate store w pages afterOffset hk hp ih

/-- C8 counterexample: the unrestricted operations break contiguity. From
the empty log, `Truncate(5)` succeeds (nothing to delete) and caches length
5; the next successful `Append` is then assigned offset 6, so the store
holds exactly one record at offset 6 — not a contiguous sequence starting
at 1. -/
theorem C8_contiguity_counterexample :
    Reachable ((s3_log.Append [] ⟨walP, 5⟩ [3] true).2.2,
               (s3_log.Append [] ⟨walP, 5⟩ [3] true).2.1)
      ∧ (Store.get (s3_log.Append [] ⟨walP, 5⟩ [3] true).2.2
          (getObjectKey walP 6)).isSome = true
      ∧ Store.get (s3_log.Append [] ⟨walP, 5⟩ [3] true).2.2
          (getObjectKey walP 1) = none
      ∧ ¬ ∃ N : Nat, ∀ j : Nat,
          (Store.get (s3_log.Append [] ⟨walP, 5⟩ [3] true).2.2
            (getObjectKey walP j)).isSome = true ↔ (1 ≤ j ∧ j ≤ N) := by
  have h6 : ((⟨walP, 5⟩ : S3WAL).length + 1) % 2 ^ 64 = 6 := by norm_num
  have hsome : (Store.get (s3_log.Append [] ⟨walP, 5⟩ [3] true).2.2
      (getObjectKey walP 6)).isSome = true := by
    rw [Append_ok, h6, Store.get_put_self]
    rfl
  have hnone : Store.get (s3_log.Append [] ⟨walP, 5⟩ [3] true).2.2
      (getObjectKey walP 1) = none := by
    rw [Append_ok, h6, Store.get_put_ne _ _ _ _ (fun hc => by
      have := getObjectKey_injective walP 1 6 hc
      omega)]
    rfl
  refine ⟨?_, hsome, hnone, ?_⟩
  · exact Reachable.step _ _
      (Reachable.step _ _ (Reachable.init walP)
        (WalStep.truncate [] ⟨walP, 0⟩ [] 5 List.Perm.nil))
      (WalStep.append [] ⟨walP, 5⟩ [3] true)
  · rintro ⟨N, hN⟩
    have h1 : 6 ≤ N := ((hN 6).mp hsome).2
    have h2 := (hN 1).mpr ⟨le_refl 1, by omega⟩
    rw [hnone] at h2
    cases h2

/-- C8 amended: in every state reachable from the empty log by the five
operations with a successful `Append` only below the uint64 ceiling and
`Truncate` restricted to `after_offset ≤ cached length`, every stored
object is a record with offset in `[1, cached length]`, an offset is
present exactly when it lies in `[1, cached length]` (contiguity from 1),
and the next successful `Append` is assigned `cached length + 1` (uint64
addition). -/
theorem C8_contiguous (st : Store × S3WAL) (h : ReachableG st) :
    (∀ kb ∈ st.1, ∃ i : Nat, 1 ≤ i ∧ i ≤ st.2.length
        ∧ kb.1 = getObjectKey st.2.keyPrefix i)
      ∧ (∀ j : Nat,
          (Store.get st.1 (getObjectKey st.2.keyPrefix j)).isSome = true
            ↔ (1 ≤ j ∧ j ≤ st.2.length))
      ∧ ∀ data : List Nat,
          (s3_log.Append st.1 st.2 data true).1
            = .ok ((st.2.length + 1) % 2 ^ 64) := by
  obtain ⟨hL, hkeys, hpres⟩ := walInv_of_reachableG st h
  refine ⟨hkeys, ?_, fun data => by rw [Append_ok]⟩
  intro j
  constructor
  · intro hget
    obtain ⟨b, hb⟩ := Option.isSome_iff_exists.mp hget
    rcases hkeys _ (Store.get_some_mem _ _ _ hb) with ⟨i, h1, h2, h3⟩
    have h3' : getObjectKey st.2.keyPrefix j = getObjectKey st.2.keyPrefix i := h3
    have hij : j = i := getObjectKey_injective _ _ _ h3'
    omega
  · intro hj
    exact hpres j hj.1 hj.2

/-- C8 witness: the initial state is reachable; in it no offset is present
and the next append is assigned offset (0 + 1) mod 2^64 = 1. -/
theorem C8_contiguous_witness :
    (s3_log.Append ([] : Store) ⟨walP, 0⟩ [] true).1
      = .ok ((0 + 1) % 2 ^ 64) :=
  (C8_contiguous ([], ⟨walP, 0⟩) (ReachableG.init walP)).2.2 []
